import Mathlib

/-!
Verification of the two scraping pipelines of this repository
(`zoo_locations.py` and `fetch_zoo_arts.py`) against their natural-language
specification.

Modelling conventions (shallow embedding):

* Pure string manipulation is translated to Lean functions over `List Char`
  (wrapped in `String` at the interfaces).
* Python `float` values are modelled as exact rationals (`ℚ`); Python
  `int` as `Int`.  The numeric literals appearing in the feed are exact
  decimals, for which the rational model and IEEE doubles agree up to far
  below the 6-significant-digit formatting studied here.  Non-finite
  floats (inf, nan) and underscore digit separators are outside the model.
* Library tokenisation layers are modelled by their output: the
  `csv.reader` of `zoo_locations.py` is modelled by the list of records
  (each a list of field strings), and the BeautifulSoup document of
  `fetch_zoo_arts.py` by the list of href attribute values of its anchor
  elements that carry one.
* Network effects are modelled by an explicit oracle
  `fetch : Int → FetchOutcome` giving, per zoo id, the links of the
  returned page or the kind of failure.
-/

namespace ZooScrape

/-! ## Generic character and list helpers -/

/-- Characters Python `str.strip()` removes (ASCII whitespace). -/
def isPyWS (c : Char) : Bool :=
  c = ' ' || c = '\t' || c = '\n' || c = '\r' || c = '\x0b' || c = '\x0c'

/-- Model of Python `str.strip()`: drop leading and trailing whitespace. -/
def stripChars (l : List Char) : List Char :=
  ((l.dropWhile isPyWS).reverse.dropWhile isPyWS).reverse

/-- Model of Python `str.strip()` on strings. -/
def pyStrip (s : String) : String := ⟨stripChars s.data⟩

/-- Model of Python `str.rstrip(c)`: drop the maximal run of characters
satisfying `p` from the end of the list. -/
def rstrip (p : Char → Bool) (l : List Char) : List Char :=
  (l.reverse.dropWhile p).reverse

/-- Numeric value of a list of decimal digit characters, as Python `int`
computes it on an all-digit string (leading zeros allowed). -/
def digitsToNat (l : List Char) : Nat :=
  l.foldl (fun acc c => 10 * acc + (c.toNat - 48)) 0

/-- The character for one decimal digit value. -/
def digitChar : Nat → Char
  | 0 => '0'
  | 1 => '1'
  | 2 => '2'
  | 3 => '3'
  | 4 => '4'
  | 5 => '5'
  | 6 => '6'
  | 7 => '7'
  | 8 => '8'
  | _ => '9'

/-- Decimal digit characters of `n`, most significant first; fuelled so that
the definition is structural (fuel `n` always suffices). -/
def natDigitsAux : Nat → Nat → List Char
  | 0, _ => []
  | fuel + 1, n =>
    if n = 0 then []
    else natDigitsAux fuel (n / 10) ++ [digitChar (n % 10)]

/-- Decimal representation of a natural number (`"0"` for zero), the digit
characters Python uses when rendering integers. -/
def natDigits (n : Nat) : List Char :=
  if n = 0 then ['0'] else natDigitsAux n n

/-- Number of decimal digits of `n` (one digit for zero); fuelled structural
recursion, fuel `n` always suffices. -/
def numDigitsAux : Nat → Nat → Nat
  | 0, _ => 1
  | fuel + 1, n => if n ≤ 9 then 1 else 1 + numDigitsAux fuel (n / 10)

/-- Number of decimal digits of a natural number. -/
def numDigits (n : Nat) : Nat := numDigitsAux n n

/-- Left-pad a character list with `c` up to length `k`. -/
def padLeft (k : Nat) (c : Char) (l : List Char) : List Char :=
  List.replicate (k - l.length) c ++ l

/-! ## Art-id extraction (`fetch_zoo_arts.extract_art_ids_from_html`)

The regular expression of the source is
`(?:^|[?&])art=(\d+)(?:&|$)` applied with `re.search`, which yields the
leftmost match; only its digit group is used.  `matchArtTail l` tries the
part of the pattern after the boundary at the start of `l`; `searchArt`
scans positions left to right, keeping the previous character to decide
the `(?:^|[?&])` boundary. -/

/-- Try to read `art=` followed by a nonempty digit run terminated by `&`
or end of string, at the very start of `l`; return the digit run value. -/
def matchArtTail : List Char → Option Nat
  | 'a' :: 'r' :: 't' :: '=' :: rest =>
    let ds := rest.takeWhile Char.isDigit
    if ds.isEmpty then none
    else
      match rest.drop ds.length with
      | [] => some (digitsToNat ds)
      | '&' :: _ => some (digitsToNat ds)
      | _ => none
  | _ => none

/-- The `(?:^|[?&])` boundary: start of string, or just after `?` or `&`. -/
def boundaryOk : Option Char → Bool
  | none => true
  | some c => c = '?' || c = '&'

/-- Leftmost regex match: scan positions left to right, trying
`matchArtTail` wherever the boundary condition holds. -/
def searchArt (prev : Option Char) : List Char → Option Nat
  | [] => none
  | c :: rest =>
    match (if boundaryOk prev then matchArtTail (c :: rest) else none) with
    | some n => some n
    | none => searchArt (some c) rest

/-- Art id contributed by one href attribute value: the digit group of the
leftmost match of `(?:^|[?&])art=(\d+)(?:&|$)`, if any. -/
def artIdOfHref (href : String) : Option Nat := searchArt none href.data

/-- Insert a value into an ascending duplicate-free list, keeping it
ascending and duplicate-free.  This is the sorted-list representation of
the `set` the source accumulates before calling `sorted`. -/
def insertArt (n : Nat) : List Nat → List Nat
  | [] => [n]
  | m :: rest =>
    if n < m then n :: m :: rest
    else if n = m then m :: rest
    else m :: insertArt n rest

/-- Model of `extract_art_ids_from_html`: the HTML fragment is given by the
href values of its anchor elements that have an href attribute; each
contributes its leftmost `art=<digits>` match; the matches are collected
into a set and returned sorted ascending. -/
def extract_art_ids_from_html (hrefs : List String) : List Nat :=
  (hrefs.filterMap artIdOfHref).foldl (fun acc n => insertArt n acc) []

/-! ## Location rows: deduplication and sorting (`zoo_locations.py`) -/

/-- Membership test `zoo_id not in result` of `dedupe_by_zoo_id`, on the
association-list model of the insertion-ordered dict. -/
def containsKey (result : List (Int × ℚ × ℚ)) (z : Int) : Bool :=
  result.any (fun t => t.1 == z)

/-- Model of `dedupe_by_zoo_id`: fold over the parsed tuples, adding a
tuple at the end of the dict only when its zoo id is not yet present. -/
def dedupe_by_zoo_id (locs : List (Int × ℚ × ℚ)) : List (Int × ℚ × ℚ) :=
  locs.foldl (fun result t => if containsKey result t.1 then result else result ++ [t]) []

/-- Fuelled helper for `firstOccurrences` (fuel the length of the list;
the recursive call is on a filtered, hence no longer, list). -/
def firstOccAux : Nat → List (Int × ℚ × ℚ) → List (Int × ℚ × ℚ)
  | 0, _ => []
  | _ + 1, [] => []
  | fuel + 1, t :: rest =>
    t :: firstOccAux fuel (rest.filter (fun u => u.1 != t.1))

/-- Specification-side definition, from the words of the spec: retain
exactly the first occurrence of each zoo id, in input order, discarding
every later occurrence of an already seen id. -/
def firstOccurrences (l : List (Int × ℚ × ℚ)) : List (Int × ℚ × ℚ) :=
  firstOccAux l.length l

/-- Key comparison used by `sorted(..., key=lambda x: x[0])`. -/
def rowLE (a b : Int × ℚ × ℚ) : Prop := a.1 ≤ b.1

instance : DecidableRel rowLE := fun a b => inferInstanceAs (Decidable (a.1 ≤ b.1))

instance : IsTotal (Int × ℚ × ℚ) rowLE := ⟨fun a b => le_total a.1 b.1⟩

instance : IsTrans (Int × ℚ × ℚ) rowLE := ⟨fun _ _ _ h1 h2 => le_trans h1 h2⟩

/-- Model of `main` lines 141-142 of `zoo_locations.py`: deduplicate, then
sort the dict items ascending by zoo id (a stable sort, as Python's). -/
def sorted_rows (locs : List (Int × ℚ × ℚ)) : List (Int × ℚ × ℚ) :=
  List.insertionSort rowLE (dedupe_by_zoo_id locs)

/-! ## Python numeric-literal parsing (model)

Models of `int(str)` and `float(str)` restricted to finite decimal
literals: optional surrounding whitespace, optional sign, digits with an
optional fraction and an optional decimal exponent.  Underscore digit
separators and the non-finite spellings (inf, nan) are outside the model. -/

/-- Value of a nonempty all-digit run, otherwise `none`. -/
def digitsVal (l : List Char) : Option Nat :=
  if l.isEmpty then none
  else if l.all Char.isDigit then some (digitsToNat l) else none

/-- Model of `int(str)` after stripping: optional sign then digits. -/
def pyIntChars : List Char → Option Int
  | '-' :: rest => (digitsVal rest).map (fun n => -(n : Int))
  | '+' :: rest => (digitsVal rest).map (fun n => (n : Int))
  | rest => (digitsVal rest).map (fun n => (n : Int))

/-- Model of Python `int(str)` (base 10). -/
def pyInt (s : String) : Option Int := pyIntChars (pyStrip s).data

/-- Powers of ten with integer exponent, as an exact rational. -/
def pow10Q (k : Int) : ℚ :=
  if 0 ≤ k then ((10 ^ k.toNat : ℕ) : ℚ) else ((10 ^ (-k).toNat : ℕ) : ℚ)⁻¹

/-- Signed decimal exponent of a float literal. -/
def expVal : List Char → Option Int
  | '-' :: ds => (digitsVal ds).map (fun n => -(n : Int))
  | '+' :: ds => (digitsVal ds).map (fun n => (n : Int))
  | ds => (digitsVal ds).map (fun n => (n : Int))

/-- Exponent suffix of a float literal: empty, or `e`/`E` then a signed
digit run; anything else is a parse failure. -/
def expPart : List Char → Option Int
  | [] => some 0
  | 'e' :: rest => expVal rest
  | 'E' :: rest => expVal rest
  | _ => none

/-- Unsigned part of a float literal: `digits [. digits] [exp]` or
`. digits [exp]`, valued as an exact rational. -/
def pyFloatMag (l : List Char) : Option ℚ :=
  let ip := l.takeWhile Char.isDigit
  let r1 := l.dropWhile Char.isDigit
  match r1 with
  | '.' :: r2 =>
    let fp := r2.takeWhile Char.isDigit
    let r3 := r2.dropWhile Char.isDigit
    if ip.isEmpty && fp.isEmpty then none
    else (expPart r3).map (fun ex =>
      ((digitsToNat ip : ℚ) + (digitsToNat fp : ℚ) / ((10 ^ fp.length : ℕ) : ℚ)) * pow10Q ex)
  | _ =>
    if ip.isEmpty then none
    else (expPart r1).map (fun ex => (digitsToNat ip : ℚ) * pow10Q ex)

/-- Float literal after stripping: optional sign then magnitude. -/
def pyFloatChars : List Char → Option ℚ
  | '-' :: rest => (pyFloatMag rest).map (fun q => -q)
  | '+' :: rest => pyFloatMag rest
  | rest => pyFloatMag rest

/-- Model of Python `float(str)` on finite decimal literals. -/
def pyFloat (s : String) : Option ℚ := pyFloatChars (pyStrip s).data

/-! ## Location feed parsing (`zoo_locations.parse_to_locations`)

The `csv.reader(..., delimiter="\t")` tokenisation is modelled by its
output: the payload is given as the list of records, each a list of field
strings.  `parse_to_locations` drops the header record and processes the
rest exactly as the source loop does. -/

/-- Model of `latlon.split(",", 1)` followed by the two-name unpacking:
`none` when there is no comma (the `ValueError` the source catches). -/
def splitFirstComma (s : String) : Option (String × String) :=
  if s.data.contains ',' then
    some (⟨s.data.takeWhile (fun c => c != ',')⟩, ⟨(s.data.dropWhile (fun c => c != ',')).tail⟩)
  else none

/-- One iteration of the row loop: `none` models `continue` (row too
short, an empty stripped field, or any numeric-conversion failure),
`some (zoo_id, lat, lon)` models a successful append. -/
def parseLocRow : List String → Option (Int × ℚ × ℚ)
  | c0 :: c1 :: _ =>
    let latlon := pyStrip c0
    let zid := pyStrip c1
    if latlon == "" || zid == "" then none
    else
      match splitFirstComma latlon with
      | none => none
      | some (a, b) =>
        match pyFloat a, pyFloat b, pyInt zid with
        | some lat, some lon, some z => some (z, lat, lon)
        | _, _, _ => none
  | _ => none

/-- The row loop of `parse_to_locations`. -/
def parseLoop : List (List String) → List (Int × ℚ × ℚ)
  | [] => []
  | r :: rest =>
    match parseLocRow r with
    | some t => t :: parseLoop rest
    | none => parseLoop rest

/-- Model of `parse_to_locations`: skip the header record, then run the
row loop; rows that fail to parse are skipped silently. -/
def parse_to_locations (rows : List (List String)) : List (Int × ℚ × ℚ) :=
  match rows with
  | [] => []
  | _header :: rest => parseLoop rest

/-! ## Zoo-id selection (`fetch_zoo_arts.main`) -/

/-- Python slice-index normalisation for `l[s:e]`: a negative index counts
back from the end (clamped at 0), a nonnegative one is clamped at the
length. -/
def pyNormIndex (i : Int) (n : Nat) : Nat :=
  if i < 0 then (i + n).toNat else min i.toNat n

/-- Model of the Python slice `l[s:e]` (`e = none` when the end is absent). -/
def pySlice {α : Type} (l : List α) (s : Int) (e : Option Int) : List α :=
  let n := l.length
  let s1 := pyNormIndex s n
  let e1 := match e with
    | none => n
    | some i => pyNormIndex i n
  (l.take e1).drop s1

/-- Model of `main` lines 170-177 of `fetch_zoo_arts.py`: when a nonzero
offset or a limit is given, slice the id list from `start = max(offset, 0)`
to `start + limit` (end absent when the limit is); otherwise use the whole
list. -/
def select_ids (allIds : List Int) (offset : Int) (limit : Option Int) : List Int :=
  if offset ≠ 0 ∨ limit.isSome then
    pySlice allIds (max offset 0) (limit.map (fun l => max offset 0 + l))
  else allIds

/-! ## Per-zoo request loop (`fetch_zoo_arts.run_for_ids` and `main`)

The network is an oracle `fetch`: per zoo id it yields either the href
values of the returned holdings page, or an HTTP failure (status error
after retries), or any other failure.  `RunLog` records, in order, the
ids for which a request was issued, the per-zoo files written (id with
the art-id list of its single `art` column), and the ids reported on the
error stream, split by failure kind as the source's two handlers are. -/

inductive FetchOutcome where
  | page (hrefs : List String)
  | httpError
  | otherError

structure RunLog where
  requests : List Int
  writes : List (Int × List Nat)
  httpFailures : List Int
  otherFailures : List Int

/-- The log of a run that issued no request and wrote nothing. -/
def emptyLog : RunLog := ⟨[], [], [], []⟩

/-- Model of `run_for_ids`: process every id in order; a failure for one
id is logged and the loop continues with the next id. -/
def run_for_ids (fetch : Int → FetchOutcome) : List Int → RunLog
  | [] => emptyLog
  | z :: rest =>
    let tail := run_for_ids fetch rest
    match fetch z with
    | .page hrefs =>
      ⟨z :: tail.requests, (z, extract_art_ids_from_html hrefs) :: tail.writes,
        tail.httpFailures, tail.otherFailures⟩
    | .httpError =>
      ⟨z :: tail.requests, tail.writes, z :: tail.httpFailures, tail.otherFailures⟩
    | .otherError =>
      ⟨z :: tail.requests, tail.writes, tail.httpFailures, z :: tail.otherFailures⟩

/-- Model of the tail of `main`: exit 2 when the resolved id list is
empty, otherwise run the loop and exit 0. -/
def arts_main_with_ids (fetch : Int → FetchOutcome) (ids : List Int) : RunLog × Nat :=
  if ids.isEmpty then (emptyLog, 2) else (run_for_ids fetch ids, 0)

/-! ## Reading ids from a locations CSV (`read_zoo_ids_from_locations`)

The CSV file is modelled as the list of its records; the first record is
the `csv.DictReader` header.  An `Except.error` models an uncaught Python
exception escaping the function. -/

/-- Index of column `name` in the header as the per-row dict sees it:
with a duplicated header name, the last column wins. -/
def colIndexAux : List String → String → Nat → Option Nat
  | [], _, _ => none
  | h :: rest, name, i =>
    match colIndexAux rest name (i + 1) with
    | some j => some j
    | none => if h == name then some i else none

/-- Value of the `name` field of a row: `none` models the `None` filler
`csv.DictReader` uses when the row is shorter than the header. -/
def rowField (header row : List String) (name : String) : Option String :=
  match colIndexAux header name 0 with
  | none => none
  | some i => row.get? i

/-- The row loop of `read_zoo_ids_from_locations`: blank rows are skipped
by `DictReader`; a `None` field value makes `.strip()` raise; blank or
non-numeric values are skipped by the `except ValueError` handler. -/
def readIdRows (header : List String) : List (List String) → Except String (List Int)
  | [] => .ok []
  | row :: rest =>
    if row.isEmpty then readIdRows header rest
    else
      match rowField header row "zoo_id" with
      | none => .error "AttributeError"
      | some v =>
        let w := pyStrip v
        if w == "" then readIdRows header rest
        else
          match pyInt w with
          | none => readIdRows header rest
          | some z => (readIdRows header rest).map (fun zs => z :: zs)

/-- Model of `read_zoo_ids_from_locations`: a missing `zoo_id` column in
the header raises `ValueError` before any row is read. -/
def read_zoo_ids_from_locations (file : List (List String)) : Except String (List Int) :=
  match file with
  | [] => .error "TypeError"
  | header :: rows =>
    if header.contains "zoo_id" then readIdRows header rows
    else .error "no zoo_id column"

/-- Model of `main` in locations mode: resolve the id list (a failure
there escapes before any request), slice it, then exit 2 on an empty
list or run the per-id loop and exit 0. -/
def arts_main_from_locations (file : List (List String)) (offset : Int) (limit : Option Int)
    (fetch : Int → FetchOutcome) : RunLog × Except String Nat :=
  match read_zoo_ids_from_locations file with
  | .error e => (emptyLog, .error e)
  | .ok allIds =>
    let ids := select_ids allIds offset limit
    if ids.isEmpty then (emptyLog, .ok 2) else (run_for_ids fetch ids, .ok 0)

/-! ## Number formatting (`zoo_locations._fmt_sig6`) over the rational model

`format(x, ".6g")` and `f"{x:.6f}"` are modelled on exact rationals: the
value is rounded (ties to even, as IEEE formatting does on the exact
value of the double) to 6 significant digits, and rendered in fixed form
when the decimal exponent lies in `[-4, 6)`, in exponent form otherwise,
with trailing zeros of the fraction removed and the decimal point removed
when no fraction remains — the printf `%g` rules the Python spec defers
to. -/

/-- Floor of a rational (own definition so that it reduces by `rfl`). -/
def ratFloor (q : ℚ) : Int := q.num.fdiv q.den

/-- Round to the nearest integer, ties to even. -/
def roundHalfEven (q : ℚ) : Int :=
  if q - (ratFloor q : ℚ) < 1 / 2 then ratFloor q
  else if 1 / 2 < q - (ratFloor q : ℚ) then ratFloor q + 1
  else if 2 ∣ ratFloor q then ratFloor q else ratFloor q + 1

/-- Decimal exponent of a nonzero rational given by its reduced numerator
and denominator: the unique `e` with `10^e ≤ |q| < 10^(e+1)`, computed
from digit counts. -/
def decExp (q : ℚ) : Int :=
  let a := q.num.natAbs
  let b := q.den
  let da := numDigits a
  let db := numDigits b
  if b * 10 ^ da ≤ a * 10 ^ db then (da : Int) - db else (da : Int) - db - 1

/-- Round a positive rational to 6 significant digits: the mantissa
(an integer in `[10^5, 10^6)`) and the decimal exponent. -/
def round6 (aq : ℚ) : Nat × Int :=
  if roundHalfEven (aq * pow10Q (5 - decExp aq)) = 10 ^ 6
  then (10 ^ 5, decExp aq + 1)
  else ((roundHalfEven (aq * pow10Q (5 - decExp aq))).toNat, decExp aq)

/-- Strip trailing zero characters. -/
def rstrip0 (l : List Char) : List Char := rstrip (fun c => c = '0') l

/-- Fixed-form `%g` rendering from sign, mantissa digits and exponent. -/
def gFixed (neg : Bool) (ds : List Char) (e : Int) : List Char :=
  (if neg then ['-'] else [])
    ++ (if 0 ≤ e then
          ds.take (e.toNat + 1)
            ++ (let fp := rstrip0 (ds.drop (e.toNat + 1))
                if fp.isEmpty then [] else '.' :: fp)
        else '0' :: '.' :: (List.replicate (-e - 1).toNat '0' ++ rstrip0 ds))

/-- Exponent-form `%g` rendering (`d.ddddde±XX`, trailing zeros of the
fraction removed). -/
def gExp (neg : Bool) (ds : List Char) (e : Int) : List Char :=
  (if neg then ['-'] else [])
    ++ ds.take 1
    ++ (let fp := rstrip0 (ds.drop 1)
        if fp.isEmpty then [] else '.' :: fp)
    ++ 'e' :: (if 0 ≤ e then '+' else '-') :: padLeft 2 '0' (natDigits e.natAbs)

/-- Model of `format(x, ".6g")`. -/
def pyFormatG6 (x : ℚ) : List Char :=
  if x = 0 then ['0']
  else
    let p := round6 |x|
    let ds := natDigits p.1
    if -4 ≤ p.2 ∧ p.2 < 6 then gFixed (decide (x < 0)) ds p.2
    else gExp (decide (x < 0)) ds p.2

/-- Model of `f"{x:.6f}"`: fixed form with exactly 6 digits after the
point. -/
def pyFormatF6 (x : ℚ) : List Char :=
  let n := (roundHalfEven (|x| * 1000000)).toNat
  (if x < 0 then ['-'] else [])
    ++ natDigits (n / 1000000) ++ '.' :: padLeft 6 '0' (natDigits (n % 1000000))

/-- Model of `_fmt_sig6`, line by line: format with `.6g`; if the result
is in exponent form, fall back to `.6f` stripped of trailing zeros and of
a trailing point; finally append `.0` when no point remains. -/
def fmtChars (x : ℚ) : List Char :=
  let s0 := pyFormatG6 x
  let s1 := if s0.contains 'e' || s0.contains 'E'
            then rstrip (fun c => c = '.') (rstrip (fun c => c = '0') (pyFormatF6 x))
            else s0
  if s1.contains '.' then s1 else s1 ++ ['.', '0']

/-- Model of `_fmt_sig6` as a string. -/
def _fmt_sig6 (x : ℚ) : String := ⟨fmtChars x⟩

/-- The decimal-point soundness predicate of claim C4: some `.` is
immediately followed by a digit. -/
def dotDigit : List Char → Bool
  | a :: c :: rest => (a = '.' && c.isDigit) || dotDigit (c :: rest)
  | _ => false

/-! ## Lemmas on the sorted art-id set -/

theorem insertArt_mem (n : Nat) (l : List Nat) (k : Nat) :
    k ∈ insertArt n l ↔ k = n ∨ k ∈ l := by
  induction l with
  | nil => simp [insertArt]
  | cons m rest ih =>
    by_cases h1 : n < m
    · simp [insertArt, h1]
    · by_cases h2 : n = m
      · subst h2
        simp [insertArt, h1]
      · simp [insertArt, h1, h2, ih]
        tauto

theorem insertArt_pairwise (n : Nat) (l : List Nat) (h : l.Pairwise (· < ·)) :
    (insertArt n l).Pairwise (· < ·) := by
  induction l with
  | nil => simp [insertArt]
  | cons m rest ih =>
    rcases List.pairwise_cons.mp h with ⟨hm, hrest⟩
    by_cases h1 : n < m
    · rw [insertArt, if_pos h1]
      refine List.pairwise_cons.mpr ⟨?_, h⟩
      intro k hk
      rcases List.mem_cons.mp hk with hk | hk
      · exact hk ▸ h1
      · exact h1.trans (hm k hk)
    · by_cases h2 : n = m
      · rw [insertArt, if_neg h1, if_pos h2]
        exact h
      · rw [insertArt, if_neg h1, if_neg h2]
        refine List.pairwise_cons.mpr ⟨?_, ih hrest⟩
        intro k hk
        rcases (insertArt_mem n rest k).mp hk with hk | hk
        · exact hk ▸ (by omega)
        · exact hm k hk

theorem foldl_insertArt_pairwise (l acc : List Nat) (h : acc.Pairwise (· < ·)) :
    (l.foldl (fun acc n => insertArt n acc) acc).Pairwise (· < ·) := by
  induction l generalizing acc with
  | nil => simpa using h
  | cons n rest ih => exact ih _ (insertArt_pairwise n acc h)

theorem foldl_insertArt_mem (l acc : List Nat) (k : Nat) :
    k ∈ l.foldl (fun acc n => insertArt n acc) acc ↔ k ∈ acc ∨ k ∈ l := by
  induction l generalizing acc with
  | nil => simp
  | cons n rest ih =>
    simp only [List.foldl_cons, ih, insertArt_mem, List.mem_cons]
    tauto

theorem extract_pairwise (hrefs : List String) :
    (extract_art_ids_from_html hrefs).Pairwise (· < ·) :=
  foldl_insertArt_pairwise _ _ List.Pairwise.nil

theorem extract_mem (hrefs : List String) (n : Nat) :
    n ∈ extract_art_ids_from_html hrefs ↔ ∃ h ∈ hrefs, artIdOfHref h = some n := by
  unfold extract_art_ids_from_html
  rw [foldl_insertArt_mem]
  simp [List.mem_filterMap]

/-! ## Lemmas on deduplication -/

theorem firstOccAux_nil (f : Nat) : firstOccAux f [] = [] := by
  cases f <;> rfl

theorem firstOccAux_fuel (f g : Nat) (l : List (Int × ℚ × ℚ))
    (hf : l.length ≤ f) (hg : l.length ≤ g) :
    firstOccAux f l = firstOccAux g l := by
  induction f generalizing g l with
  | zero =>
    have hl : l = [] := List.length_eq_zero.mp (Nat.le_zero.mp hf)
    subst hl
    rw [firstOccAux_nil, firstOccAux_nil]
  | succ f ih =>
    cases l with
    | nil => rw [firstOccAux_nil, firstOccAux_nil]
    | cons t rest =>
      cases g with
      | zero => simp at hg
      | succ g =>
        simp only [List.length_cons, Nat.add_le_add_iff_right] at hf hg
        have hlen := List.length_filter_le (fun u => u.1 != t.1) rest
        simp only [firstOccAux]
        congr 1
        exact ih g _ (hlen.trans hf) (hlen.trans hg)

theorem firstOccurrences_cons (t : Int × ℚ × ℚ) (rest : List (Int × ℚ × ℚ)) :
    firstOccurrences (t :: rest)
      = t :: firstOccurrences (rest.filter (fun u => u.1 != t.1)) := by
  unfold firstOccurrences
  simp only [List.length_cons, firstOccAux]
  congr 1
  exact firstOccAux_fuel rest.length _ _ (List.length_filter_le _ _) le_rfl

theorem bnot_beq_comm (a b : Int) : (!(a == b)) = (b != a) := by
  by_cases h : a = b
  · simp [h]
  · have hab : (a == b) = false := by simpa using h
    have hba : (b != a) = true := bne_iff_ne.mpr (fun hh => h hh.symm)
    rw [hab, hba]
    rfl

theorem dedupe_foldl (l : List (Int × ℚ × ℚ)) : ∀ acc : List (Int × ℚ × ℚ),
    l.foldl (fun result t => if containsKey result t.1 then result else result ++ [t]) acc
      = acc ++ firstOccurrences (l.filter (fun t => !containsKey acc t.1)) := by
  induction l with
  | nil =>
    intro acc
    simp [firstOccurrences, firstOccAux]
  | cons t rest ih =>
    intro acc
    simp only [List.foldl_cons, List.filter_cons]
    by_cases h : containsKey acc t.1
    · simp only [h, if_true, Bool.not_true, Bool.false_eq_true, if_false]
      exact ih acc
    · have hb : containsKey acc t.1 = false := by simpa using h
      simp only [hb, Bool.false_eq_true, if_false, Bool.not_false, if_true]
      rw [ih (acc ++ [t]), firstOccurrences_cons, List.append_assoc, List.singleton_append]
      have heq : rest.filter (fun u => !containsKey (acc ++ [t]) u.1)
          = (rest.filter (fun u => !containsKey acc u.1)).filter (fun u => u.1 != t.1) := by
        rw [List.filter_filter]
        apply List.filter_congr
        intro u _
        simp only [containsKey, List.any_append, List.any_cons, List.any_nil,
          Bool.or_false, Bool.not_or]
        rw [bnot_beq_comm, Bool.and_comm]
      rw [heq]

theorem dedupe_eq_firstOccurrences (locs : List (Int × ℚ × ℚ)) :
    dedupe_by_zoo_id locs = firstOccurrences locs := by
  unfold dedupe_by_zoo_id
  rw [dedupe_foldl locs [], List.nil_append]
  congr 1
  apply List.filter_eq_self.mpr
  intro a _
  rfl

theorem mem_firstOccAux (f : Nat) (l : List (Int × ℚ × ℚ)) (u : Int × ℚ × ℚ)
    (h : u ∈ firstOccAux f l) : u ∈ l := by
  induction f generalizing l with
  | zero => simp [firstOccAux] at h
  | succ f ih =>
    cases l with
    | nil =>
      rw [firstOccAux_nil] at h
      simp at h
    | cons t rest =>
      simp only [firstOccAux, List.mem_cons] at h
      rcases h with h | h
      · exact h ▸ List.mem_cons_self t rest
      · exact List.mem_cons_of_mem t (List.mem_of_mem_filter (ih _ h))

theorem firstOccAux_keys_nodup (f : Nat) (l : List (Int × ℚ × ℚ)) :
    ((firstOccAux f l).map Prod.fst).Nodup := by
  induction f generalizing l with
  | zero => simp [firstOccAux]
  | succ f ih =>
    cases l with
    | nil => simp [firstOccAux_nil]
    | cons t rest =>
      simp only [firstOccAux, List.map_cons, List.nodup_cons]
      constructor
      · intro hmem
        rcases List.mem_map.mp hmem with ⟨u, hu, hkey⟩
        rcases List.mem_filter.mp (mem_firstOccAux f _ u hu) with ⟨-, hne⟩
        exact (bne_iff_ne.mp hne) hkey
      · exact ih _

theorem firstOccurrences_keys_nodup (l : List (Int × ℚ × ℚ)) :
    ((firstOccurrences l).map Prod.fst).Nodup :=
  firstOccAux_keys_nodup l.length l

theorem sorted_rows_keys_strict (locs : List (Int × ℚ × ℚ)) :
    ((sorted_rows locs).map Prod.fst).Pairwise (· < ·) := by
  have hsort : List.Sorted rowLE (sorted_rows locs) :=
    List.sorted_insertionSort rowLE (dedupe_by_zoo_id locs)
  have hperm : (sorted_rows locs).Perm (dedupe_by_zoo_id locs) :=
    List.perm_insertionSort rowLE (dedupe_by_zoo_id locs)
  have hnodup : ((dedupe_by_zoo_id locs).map Prod.fst).Nodup := by
    rw [dedupe_eq_firstOccurrences]
    exact firstOccurrences_keys_nodup locs
  have hnodup2 : ((sorted_rows locs).map Prod.fst).Nodup :=
    ((hperm.map Prod.fst).nodup_iff).mpr hnodup
  have hle : ((sorted_rows locs).map Prod.fst).Pairwise (· ≤ ·) := by
    rw [List.pairwise_map]
    exact hsort
  exact (hle.and hnodup2).imp (fun h => lt_of_le_of_ne h.1 h.2)

/-! ## Claims C1, C2, C3 -/

/-- C1: art-id extraction looks at every hyperlink with an href attribute,
takes the (leftmost) `art=<digits>` query-parameter match of each,
collects the matched integers into a set, and returns them as a sorted
ascending list; the three-link example yields `[7, 42]`, and a fragment
with no matching link yields `[]`. -/
theorem claim_C1_art_id_extraction (hrefs : List String) :
    (extract_art_ids_from_html hrefs).Pairwise (· < ·)
    ∧ (∀ n, n ∈ extract_art_ids_from_html hrefs ↔ ∃ h ∈ hrefs, artIdOfHref h = some n)
    ∧ extract_art_ids_from_html
        ["zoosmap.php?id=1&art=42&haltung=0", "x?art=42", "x?art=7"] = [7, 42]
    ∧ ((∀ h ∈ hrefs, artIdOfHref h = none) → extract_art_ids_from_html hrefs = []) := by
  refine ⟨extract_pairwise hrefs, fun n => extract_mem hrefs n, by decide, fun hnone => ?_⟩
  unfold extract_art_ids_from_html
  rw [List.filterMap_eq_nil_iff.mpr hnone]
  rfl

/-- Witness for C1 at a concrete fragment with a single non-matching link. -/
theorem claim_C1_art_id_extraction_witness :
    (∀ h ∈ (["zoosmap.php?id=1"] : List String), artIdOfHref h = none)
    ∧ extract_art_ids_from_html ["zoosmap.php?id=1"] = [] :=
  ⟨by decide, (claim_C1_art_id_extraction ["zoosmap.php?id=1"]).2.2.2 (by decide)⟩

/-- C2: deduplication keeps exactly the first occurrence of each zoo id in
input order (`firstOccurrences` is that specification, word for word);
in particular a repeated id 5 keeps only the first coordinates. -/
theorem claim_C2_dedupe_keeps_first :
    (∀ locs : List (Int × ℚ × ℚ), dedupe_by_zoo_id locs = firstOccurrences locs)
    ∧ dedupe_by_zoo_id [(5, 1, 2), (5, 3, 4)] = [(5, 1, 2)] :=
  ⟨dedupe_eq_firstOccurrences, by decide⟩

/-! ## Lemmas on slicing and selection -/

theorem take_min_self {α : Type} (l : List α) (e : Nat) :
    l.take (min e l.length) = l.take e := by
  rcases Nat.le_total e l.length with h | h
  · rw [min_eq_left h]
  · rw [min_eq_right h, List.take_length, List.take_of_length_le h]

theorem drop_min_of_le {α : Type} (X : List α) (s n : Nat) (h : X.length ≤ n) :
    X.drop (min s n) = X.drop s := by
  rcases Nat.le_total s n with hs | hs
  · rw [min_eq_left hs]
  · rw [min_eq_right hs, List.drop_eq_nil_of_le h, List.drop_eq_nil_of_le (h.trans hs)]

theorem select_ids_nonneg_both (ids : List Int) (o l : Int) (ho : 0 ≤ o) (hl : 0 ≤ l) :
    select_ids ids o (some l) = (ids.drop o.toNat).take l.toNat := by
  have hcond : o ≠ 0 ∨ (some l).isSome = true := Or.inr rfl
  rw [select_ids, if_pos hcond]
  simp only [pySlice, pyNormIndex, Option.map_some', max_eq_left ho]
  rw [if_neg (by omega), if_neg (by omega)]
  rw [take_min_self, drop_min_of_le _ _ _ (by rw [List.length_take]; omega)]
  rw [List.drop_take]
  congr 1
  omega

theorem select_ids_none_limit (ids : List Int) (o : Int) (ho : 0 ≤ o) :
    select_ids ids o none = ids.drop o.toNat := by
  by_cases h0 : o = 0
  · subst h0
    rw [select_ids, if_neg (by simp)]
    rw [show ((0 : Int)).toNat = 0 from rfl, List.drop_zero]
  · have hcond : o ≠ 0 ∨ (none : Option Int).isSome = true := Or.inl h0
    rw [select_ids, if_pos hcond]
    simp only [pySlice, pyNormIndex, Option.map_none', max_eq_left ho]
    rw [if_neg (by omega)]
    rw [List.take_length, drop_min_of_le _ _ _ le_rfl]

theorem select_ids_neg_offset (ids : List Int) (o l : Int) (ho : o < 0) (hl : 0 ≤ l) :
    select_ids ids o (some l) = ids.take l.toNat := by
  have hcond : o ≠ 0 ∨ (some l).isSome = true := Or.inl (by omega)
  rw [select_ids, if_pos hcond]
  simp only [pySlice, pyNormIndex, Option.map_some', max_eq_right ho.le, zero_add]
  rw [if_neg (by omega), if_neg (by omega)]
  rw [take_min_self]
  rw [show ((0 : Int)).toNat = 0 from rfl]
  simp [List.drop_zero]

theorem select_ids_neg_end (ids : List Int) (o l : Int) (ho : 0 ≤ o) (hol : o + l < 0) :
    select_ids ids o (some l)
      = (ids.take (ids.length - (-(o + l)).toNat)).drop o.toNat := by
  have hcond : o ≠ 0 ∨ (some l).isSome = true := Or.inr rfl
  rw [select_ids, if_pos hcond]
  simp only [pySlice, pyNormIndex, Option.map_some', max_eq_left ho]
  rw [if_neg (by omega), if_pos hol]
  rw [drop_min_of_le _ _ _ (by rw [List.length_take]; omega)]
  congr 2
  omega

theorem select_ids_neg_empty (ids : List Int) (o l : Int) (ho : 0 ≤ o) (hl : l < 0)
    (hol : 0 ≤ o + l) : select_ids ids o (some l) = [] := by
  have hcond : o ≠ 0 ∨ (some l).isSome = true := Or.inr rfl
  rw [select_ids, if_pos hcond]
  simp only [pySlice, pyNormIndex, Option.map_some', max_eq_left ho]
  rw [if_neg (by omega), if_neg (by omega)]
  apply List.drop_eq_nil_of_le
  rw [List.length_take]
  omega

theorem select_ids_drop_last (ids : List Int) :
    select_ids ids 0 (some (-1)) = ids.dropLast := by
  have hcond : (0 : Int) ≠ 0 ∨ (some (-1 : Int)).isSome = true := Or.inr rfl
  rw [select_ids, if_pos hcond]
  simp only [pySlice, pyNormIndex, Option.map_some', max_self, zero_add]
  rw [if_neg (by omega), if_pos (by omega)]
  rw [show ((0 : Int)).toNat = 0 from rfl]
  rw [show ((-1 : Int) + (ids.length : Int)).toNat = ids.length - 1 from by omega]
  simp [List.drop_zero, List.dropLast_eq_take]

/-! ## Lemmas on the request loop -/

theorem run_for_ids_append (fetch : Int → FetchOutcome) (a b : List Int) :
    run_for_ids fetch (a ++ b)
      = ⟨(run_for_ids fetch a).requests ++ (run_for_ids fetch b).requests,
         (run_for_ids fetch a).writes ++ (run_for_ids fetch b).writes,
         (run_for_ids fetch a).httpFailures ++ (run_for_ids fetch b).httpFailures,
         (run_for_ids fetch a).otherFailures ++ (run_for_ids fetch b).otherFailures⟩ := by
  induction a with
  | nil => simp [run_for_ids, emptyLog]
  | cons z rest ih =>
    cases hz : fetch z <;>
      simp [run_for_ids, hz, ih, List.cons_append]

theorem run_for_ids_writes_mem (fetch : Int → FetchOutcome) (ids : List Int) (z : Int)
    (hrefs : List String) (hz : z ∈ ids) (hfz : fetch z = .page hrefs) :
    (z, extract_art_ids_from_html hrefs) ∈ (run_for_ids fetch ids).writes := by
  induction ids with
  | nil => simp at hz
  | cons w rest ih =>
    rcases List.mem_cons.mp hz with h | h
    · subst h
      simp [run_for_ids, hfz]
    · cases hw : fetch w <;> simp [run_for_ids, hw, ih h]

theorem run_for_ids_http_mem (fetch : Int → FetchOutcome) (ids : List Int) (z : Int)
    (hz : z ∈ ids) (hfz : fetch z = .httpError) :
    z ∈ (run_for_ids fetch ids).httpFailures := by
  induction ids with
  | nil => simp at hz
  | cons w rest ih =>
    rcases List.mem_cons.mp hz with h | h
    · subst h
      simp [run_for_ids, hfz]
    · cases hw : fetch w <;> simp [run_for_ids, hw, ih h]

/-! ## Lemmas on the feed parser -/

theorem parseLoop_eq_filterMap (rows : List (List String)) :
    parseLoop rows = rows.filterMap parseLocRow := by
  induction rows with
  | nil => rfl
  | cons r rest ih =>
    rw [parseLoop, List.filterMap_cons]
    cases parseLocRow r <;> simp [ih]

/-- C3: the rows handed to the locations CSV writer are strictly ascending
by zoo id (hence duplicate-free), whatever the input order; and every
per-zoo art-id list is strictly ascending (hence duplicate-free). -/
theorem claim_C3_outputs_strictly_ascending :
    (∀ locs : List (Int × ℚ × ℚ), ((sorted_rows locs).map Prod.fst).Pairwise (· < ·))
    ∧ (∀ hrefs : List String, (extract_art_ids_from_html hrefs).Pairwise (· < ·)) :=
  ⟨sorted_rows_keys_strict, extract_pairwise⟩

/-- C6: the feed parser drops the header record; every other record is
kept exactly when field 0 (stripped) splits at its first comma into two
float literals and field 1 (stripped) is an integer literal; empty
records, records with fewer than 2 fields, blank stripped fields and
numeric-conversion failures contribute nothing and raise nothing (the
parser is a total function, given here by a `filterMap`). -/
theorem claim_C6_feed_parser_row_policy (rows : List (List String)) :
    parse_to_locations rows = rows.tail.filterMap parseLocRow
    ∧ (∀ row : List String, row.length < 2 → parseLocRow row = none)
    ∧ (∀ c0 c1 rest, pyStrip c0 = "" ∨ pyStrip c1 = "" →
        parseLocRow (c0 :: c1 :: rest) = none)
    ∧ (∀ c0 c1 rest, splitFirstComma (pyStrip c0) = none →
        parseLocRow (c0 :: c1 :: rest) = none)
    ∧ (∀ c0 c1 rest a b, splitFirstComma (pyStrip c0) = some (a, b) →
        pyFloat a = none ∨ pyFloat b = none ∨ pyInt (pyStrip c1) = none →
        parseLocRow (c0 :: c1 :: rest) = none)
    ∧ (∀ c0 c1 rest a b lat lon z, splitFirstComma (pyStrip c0) = some (a, b) →
        pyFloat a = some lat → pyFloat b = some lon → pyInt (pyStrip c1) = some z →
        parseLocRow (c0 :: c1 :: rest) = some (z, lat, lon)) := by
  refine ⟨?_, ?_, ?_, ?_, ?_, ?_⟩
  · cases rows with
    | nil => rfl
    | cons hd tl => exact parseLoop_eq_filterMap tl
  · intro row hlen
    rcases row with _ | ⟨c0, _ | ⟨c1, rest⟩⟩
    · rfl
    · rfl
    · simp only [List.length_cons] at hlen
      omega
  · intro c0 c1 rest h
    rcases h with h | h <;> simp [parseLocRow, h]
  · intro c0 c1 rest hsplit
    by_cases h1 : pyStrip c0 = ""
    · simp [parseLocRow, h1]
    · by_cases h2 : pyStrip c1 = ""
      · simp [parseLocRow, h2]
      · simp [parseLocRow, h1, h2, hsplit]
  · intro c0 c1 rest a b hsplit hfail
    by_cases h2 : pyStrip c1 = ""
    · simp [parseLocRow, h2]
    · have h1 : pyStrip c0 ≠ "" := by
        intro h
        rw [h, (by decide : splitFirstComma "" = none)] at hsplit
        exact Option.noConfusion hsplit
      rcases hfail with hf | hf | hf
      · simp [parseLocRow, h1, h2, hsplit, hf]
      · cases hfa : pyFloat a <;>
          simp [parseLocRow, h1, h2, hsplit, hfa, hf]
      · cases hfa : pyFloat a <;> cases hfb : pyFloat b <;>
          simp [parseLocRow, h1, h2, hsplit, hfa, hfb, hf]
  · intro c0 c1 rest a b lat lon z hsplit hfa hfb hz
    have h1 : pyStrip c0 ≠ "" := by
      intro h
      rw [h, (by decide : splitFirstComma "" = none)] at hsplit
      exact Option.noConfusion hsplit
    have h2 : pyStrip c1 ≠ "" := by
      intro h
      rw [h, (by decide : pyInt "" = none)] at hz
      exact Option.noConfusion hz
    simp [parseLocRow, h1, h2, hsplit, hfa, hfb, hz]

/-- Witness for C6 at a concrete well-formed record. -/
theorem claim_C6_feed_parser_row_policy_witness :
    splitFirstComma (pyStrip "52.5,13.4") = some ("52.5", "13.4")
    ∧ pyFloat "52.5" = some (105 / 2 : ℚ)
    ∧ pyFloat "13.4" = some (67 / 5 : ℚ)
    ∧ pyInt (pyStrip " 5") = some 5
    ∧ parseLocRow ["52.5,13.4", " 5"] = some (5, (105 / 2 : ℚ), (67 / 5 : ℚ)) := by
  refine ⟨by decide, by with_unfolding_all decide, by with_unfolding_all decide,
    by decide, ?_⟩
  exact (claim_C6_feed_parser_row_policy []).2.2.2.2.2 "52.5,13.4" " 5" [] "52.5" "13.4"
    (105 / 2 : ℚ) (67 / 5 : ℚ) 5 (by decide) (by with_unfolding_all decide)
    (by with_unfolding_all decide) (by decide)

/-- C7: with a nonnegative offset `o` and nonnegative limit `l`, the
selected ids are exactly the input positions `o` to `o + l - 1` in order;
a negative offset is clamped to 0; an absent limit runs to the end; with
10 ids, `offset=3, limit=2` selects exactly positions 3 and 4. -/
theorem claim_C7_offset_limit_window (ids : List Int) (o l : Int) :
    (0 ≤ o → 0 ≤ l → select_ids ids o (some l) = (ids.drop o.toNat).take l.toNat)
    ∧ (0 ≤ o → select_ids ids o none = ids.drop o.toNat)
    ∧ (o < 0 → 0 ≤ l → select_ids ids o (some l) = ids.take l.toNat)
    ∧ select_ids [10, 11, 12, 13, 14, 15, 16, 17, 18, 19] 3 (some 2) = [13, 14] :=
  ⟨fun ho hl => select_ids_nonneg_both ids o l ho hl,
   fun ho => select_ids_none_limit ids o ho,
   fun ho hl => select_ids_neg_offset ids o l ho hl,
   by decide⟩

/-- Witness for C7 at ten concrete ids with offset 3 and limit 2. -/
theorem claim_C7_offset_limit_window_witness :
    (0 : Int) ≤ 3 ∧ (0 : Int) ≤ 2
    ∧ select_ids [10, 11, 12, 13, 14, 15, 16, 17, 18, 19] 3 (some 2)
        = (([10, 11, 12, 13, 14, 15, 16, 17, 18, 19] : List Int).drop (3 : Int).toNat).take
            (2 : Int).toNat :=
  ⟨by decide, by decide,
   (claim_C7_offset_limit_window [10, 11, 12, 13, 14, 15, 16, 17, 18, 19] 3 2).1
     (by decide) (by decide)⟩

/-- C8: one failing zoo id never prevents later ids of the batch from
being processed and written (the run log is a homomorphic image of the id
list), every id whose fetch succeeds gets its file, HTTP failures are
reported, and the pipeline exits 0 on completion — code 2 exactly when
the resolved id list is empty. -/
theorem claim_C8_batch_isolation_and_exit_codes (fetch : Int → FetchOutcome)
    (ids : List Int) :
    (ids ≠ [] → (arts_main_with_ids fetch ids).2 = 0)
    ∧ ((arts_main_with_ids fetch ids).2 = 2 ↔ ids = [])
    ∧ (∀ pre z post, ids = pre ++ z :: post →
        (run_for_ids fetch ids).writes
          = (run_for_ids fetch pre).writes ++ (run_for_ids fetch [z]).writes
              ++ (run_for_ids fetch post).writes)
    ∧ (∀ z ∈ ids, ∀ hrefs, fetch z = .page hrefs →
        (z, extract_art_ids_from_html hrefs) ∈ (run_for_ids fetch ids).writes)
    ∧ (∀ z ∈ ids, fetch z = .httpError → z ∈ (run_for_ids fetch ids).httpFailures) := by
  refine ⟨?_, ?_, ?_, ?_, ?_⟩
  · intro h
    cases ids with
    | nil => exact absurd rfl h
    | cons z rest => rfl
  · cases ids with
    | nil => simp [arts_main_with_ids]
    | cons z rest => simp [arts_main_with_ids]
  · intro pre z post h
    subst h
    rw [← List.singleton_append, run_for_ids_append, run_for_ids_append]
    simp [List.append_assoc]
  · intro z hz hrefs hfz
    exact run_for_ids_writes_mem fetch ids z hrefs hz hfz
  · intro z hz hfz
    exact run_for_ids_http_mem fetch ids z hz hfz

/-- Failure pattern used by the C8 witness: id 1 fails with an HTTP
error, every other id returns a page with one art link. -/
def fetchWithOneFailure : Int → FetchOutcome :=
  fun z => if z = 1 then .httpError else .page ["x?art=3"]

/-- Witness for C8: in the batch `[1, 2]` the id 1 fails over HTTP, yet
id 2 is processed and written, and the exit code is 0. -/
theorem claim_C8_batch_isolation_and_exit_codes_witness :
    (([1, 2] : List Int) ≠ [])
    ∧ (arts_main_with_ids fetchWithOneFailure [1, 2]).2 = 0
    ∧ ((2 : Int) ∈ ([1, 2] : List Int))
    ∧ fetchWithOneFailure 2 = .page ["x?art=3"]
    ∧ ((2 : Int), extract_art_ids_from_html ["x?art=3"])
        ∈ (run_for_ids fetchWithOneFailure [1, 2]).writes
    ∧ ((1 : Int) ∈ ([1, 2] : List Int))
    ∧ fetchWithOneFailure 1 = .httpError
    ∧ (1 : Int) ∈ (run_for_ids fetchWithOneFailure [1, 2]).httpFailures := by
  refine ⟨by decide,
    (claim_C8_batch_isolation_and_exit_codes fetchWithOneFailure [1, 2]).1 (by decide),
    by decide, rfl, ?_, by decide, rfl, ?_⟩
  · exact (claim_C8_batch_isolation_and_exit_codes fetchWithOneFailure [1, 2]).2.2.2.1
      2 (by decide) ["x?art=3"] rfl
  · exact (claim_C8_batch_isolation_and_exit_codes fetchWithOneFailure [1, 2]).2.2.2.2
      1 (by decide) rfl

/-- C9: a locations CSV whose header has no `zoo_id` column makes the id
source raise a fatal configuration error, and the request log stays empty
— the failure happens before any HTTP request is issued. -/
theorem claim_C9_missing_zoo_id_is_fatal_before_requests (header : List String)
    (rows : List (List String)) (offset : Int) (limit : Option Int)
    (fetch : Int → FetchOutcome) (h : header.contains "zoo_id" = false) :
    (arts_main_from_locations (header :: rows) offset limit fetch).1.requests = []
    ∧ (arts_main_from_locations (header :: rows) offset limit fetch).2
        = .error "no zoo_id column" := by
  have h2 : "zoo_id" ∉ header := by
    intro hm
    rw [show header.contains "zoo_id" = header.elem "zoo_id" from rfl,
      List.elem_eq_true_of_mem hm] at h
    exact Bool.noConfusion h
  simp [arts_main_from_locations, read_zoo_ids_from_locations, h2, emptyLog]

/-- Witness for C9 at a concrete headered file without a zoo_id column. -/
theorem claim_C9_missing_zoo_id_is_fatal_before_requests_witness :
    ((["id", "latitude", "longitude"] : List String).contains "zoo_id" = false)
    ∧ (arts_main_from_locations [["id", "latitude", "longitude"], ["1", "2", "3"]]
        0 none (fun _ => FetchOutcome.httpError)).1.requests = []
    ∧ (arts_main_from_locations [["id", "latitude", "longitude"], ["1", "2", "3"]]
        0 none (fun _ => FetchOutcome.httpError)).2 = .error "no zoo_id column" := by
  refine ⟨by decide, ?_, ?_⟩
  · exact (claim_C9_missing_zoo_id_is_fatal_before_requests ["id", "latitude", "longitude"]
      [["1", "2", "3"]] 0 none (fun _ => FetchOutcome.httpError) (by decide)).1
  · exact (claim_C9_missing_zoo_id_is_fatal_before_requests ["id", "latitude", "longitude"]
      [["1", "2", "3"]] 0 none (fun _ => FetchOutcome.httpError) (by decide)).2

/-- C10: a negative limit `l` is neither rejected nor unlimited: the end
index `o + l` follows Python slice semantics, counting back from the end
of the list when negative; `offset=0, limit=-1` selects all but the last
id; whenever the end does not lie past position `o` the selection is
empty and the exit code is 2. -/
theorem claim_C10_negative_limit_slice (ids : List Int) (o l : Int) :
    (0 ≤ o → o + l < 0 →
        select_ids ids o (some l)
          = (ids.take (ids.length - (-(o + l)).toNat)).drop o.toNat)
    ∧ (0 ≤ o → l < 0 → 0 ≤ o + l → select_ids ids o (some l) = [])
    ∧ (0 ≤ o → l < 0 → o + l + (ids.length : Int) ≤ o → select_ids ids o (some l) = [])
    ∧ select_ids ids 0 (some (-1)) = ids.dropLast
    ∧ (∀ fetch : Int → FetchOutcome, select_ids ids o (some l) = [] →
        (arts_main_with_ids fetch (select_ids ids o (some l))).2 = 2) := by
  refine ⟨fun ho hol => select_ids_neg_end ids o l ho hol,
    fun ho hl hol => select_ids_neg_empty ids o l ho hl hol,
    fun ho hl hle => ?_, select_ids_drop_last ids, fun fetch h => ?_⟩
  · by_cases hol : o + l < 0
    · rw [select_ids_neg_end ids o l ho hol]
      apply List.drop_eq_nil_of_le
      rw [List.length_take]
      omega
    · exact select_ids_neg_empty ids o l ho hl (by omega)
  · rw [h]
    rfl

/-- Witness for C10 at `[1, 2, 3]`: `offset=0, limit=-1` drops the last
id, and `offset=2, limit=-1` selects nothing. -/
theorem claim_C10_negative_limit_slice_witness :
    ((0 : Int) ≤ 0 ∧ (0 : Int) + (-1) < 0
      ∧ select_ids [1, 2, 3] 0 (some (-1))
          = (([1, 2, 3] : List Int).take
              (([1, 2, 3] : List Int).length - (-((0 : Int) + (-1))).toNat)).drop
              (0 : Int).toNat)
    ∧ ((0 : Int) ≤ 2 ∧ (-1 : Int) < 0 ∧ (0 : Int) ≤ 2 + (-1)
      ∧ select_ids [1, 2, 3] 2 (some (-1)) = []) :=
  ⟨⟨by decide, by decide,
    (claim_C10_negative_limit_slice [1, 2, 3] 0 (-1)).1 (by decide) (by decide)⟩,
   ⟨by decide, by decide, by decide,
    (claim_C10_negative_limit_slice [1, 2, 3] 2 (-1)).2.1 (by decide) (by decide) (by decide)⟩⟩

/-! ## Digit-character lemmas -/

theorem digitChar_isDigit (k : Nat) : (digitChar k).isDigit = true := by
  unfold digitChar
  split <;> rfl

theorem digitChar_ne_zero (k : Nat) (hk : k ≠ 0) : digitChar k ≠ '0' := by
  unfold digitChar
  split <;> first | (exact absurd rfl hk) | decide

theorem isDigit_ne_special (c : Char) (h : c.isDigit = true) :
    c ≠ '.' ∧ c ≠ 'e' ∧ c ≠ 'E' ∧ c ≠ '-' := by
  refine ⟨?_, ?_, ?_, ?_⟩ <;> (rintro rfl; exact absurd h (by decide))

theorem natDigitsAux_zero (f : Nat) : natDigitsAux f 0 = [] := by
  cases f <;> simp [natDigitsAux]

theorem natDigitsAux_all_digits : ∀ f n c, c ∈ natDigitsAux f n → c.isDigit = true := by
  intro f
  induction f with
  | zero =>
    intro n c h
    simp [natDigitsAux] at h
  | succ f ih =>
    intro n c h
    rw [natDigitsAux] at h
    by_cases h0 : n = 0
    · rw [if_pos h0] at h
      simp at h
    · rw [if_neg h0] at h
      rcases List.mem_append.mp h with h | h
      · exact ih _ _ h
      · rw [List.mem_singleton] at h
        subst h
        exact digitChar_isDigit _

theorem natDigits_all_digits (n : Nat) (c : Char) (h : c ∈ natDigits n) :
    c.isDigit = true := by
  unfold natDigits at h
  by_cases h0 : n = 0
  · rw [if_pos h0, List.mem_singleton] at h
    subst h
    decide
  · rw [if_neg h0] at h
    exact natDigitsAux_all_digits n n c h

theorem natDigitsAux_head : ∀ f n, 1 ≤ n → n ≤ f →
    ∃ d rest, natDigitsAux f n = d :: rest ∧ d ≠ '0' := by
  intro f
  induction f with
  | zero =>
    intro n h1 h2
    omega
  | succ f ih =>
    intro n h1 h2
    rw [natDigitsAux, if_neg (by omega)]
    by_cases h10 : n < 10
    · rw [Nat.div_eq_of_lt h10, natDigitsAux_zero]
      refine ⟨digitChar (n % 10), [], rfl, ?_⟩
      rw [Nat.mod_eq_of_lt h10]
      exact digitChar_ne_zero n (by omega)
    · have hd1 : 1 ≤ n / 10 := (Nat.one_le_div_iff (by omega)).mpr (by omega)
      have hd2 : n / 10 ≤ f := by
        have := Nat.div_lt_self (by omega : 0 < n) (by omega : 1 < 10)
        omega
      rcases ih (n / 10) hd1 hd2 with ⟨d, rest, heq, hne⟩
      rw [heq]
      exact ⟨d, rest ++ [digitChar (n % 10)], rfl, hne⟩

theorem natDigits_ne_nil (n : Nat) : natDigits n ≠ [] := by
  unfold natDigits
  by_cases h0 : n = 0
  · simp [h0]
  · rw [if_neg h0]
    rcases natDigitsAux_head n n (by omega) le_rfl with ⟨d, rest, heq, -⟩
    simp [heq]

/-! ## Lemmas on right stripping -/

theorem rstrip_subset (p : Char → Bool) (l : List Char) (c : Char) (h : c ∈ rstrip p l) :
    c ∈ l := by
  unfold rstrip at h
  rw [List.mem_reverse] at h
  rw [← List.mem_reverse]
  exact (List.dropWhile_sublist _).subset h

theorem rstrip_all (p : Char → Bool) (l : List Char) (h : ∀ c ∈ l, p c = true) :
    rstrip p l = [] := by
  unfold rstrip
  rw [List.dropWhile_eq_nil_iff.mpr (fun c hc => h c (List.mem_reverse.mp hc))]
  rfl

theorem rstrip_eq_nil_forall (p : Char → Bool) (l : List Char) (h : rstrip p l = []) :
    ∀ c ∈ l, p c = true := by
  intro c hc
  unfold rstrip at h
  have h2 : l.reverse.dropWhile p = [] := by
    have := congrArg List.reverse h
    rwa [List.reverse_reverse, List.reverse_nil] at this
  exact List.dropWhile_eq_nil_iff.mp h2 c (List.mem_reverse.mpr hc)

theorem rstrip_append_of_ne_nil (p : Char → Bool) (a b : List Char)
    (h : rstrip p b ≠ []) : rstrip p (a ++ b) = a ++ rstrip p b := by
  have hne : (b.reverse.dropWhile p).isEmpty = false := by
    cases hh : b.reverse.dropWhile p with
    | nil =>
      exfalso
      apply h
      unfold rstrip
      rw [hh, List.reverse_nil]
    | cons x xs => rfl
  unfold rstrip
  rw [List.reverse_append, List.dropWhile_append, hne]
  simp only [Bool.false_eq_true, if_false, List.reverse_append, List.reverse_reverse]

theorem rstrip_append_all (p : Char → Bool) (a b : List Char)
    (hb : ∀ c ∈ b, p c = true) : rstrip p (a ++ b) = rstrip p a := by
  unfold rstrip
  rw [List.reverse_append, List.dropWhile_append]
  have hnil : b.reverse.dropWhile p = [] :=
    List.dropWhile_eq_nil_iff.mpr (fun c hc => hb c (List.mem_reverse.mp hc))
  rw [hnil]
  rfl

theorem rstrip_last_not (p : Char → Bool) (l : List Char) (c : Char) (h : p c = false) :
    rstrip p (l ++ [c]) = l ++ [c] := by
  unfold rstrip
  rw [List.reverse_append]
  simp only [List.reverse_cons, List.reverse_nil, List.nil_append, List.singleton_append]
  rw [List.dropWhile_cons]
  rw [h]
  simp only [Bool.false_eq_true, if_false]
  rw [List.reverse_cons, List.reverse_reverse]

/-! ## Lemmas on the decimal-point predicate and on containment -/

theorem dotDigit_append_dot_zero : ∀ l : List Char, '.' ∉ l →
    dotDigit (l ++ ['.', '0']) = true := by
  intro l
  induction l with
  | nil =>
    intro _
    decide
  | cons a rest ih =>
    intro h
    have ha : a ≠ '.' := fun hh => h (hh ▸ List.mem_cons_self a rest)
    have h2 : '.' ∉ rest := fun hh => h (List.mem_cons_of_mem a hh)
    cases rest with
    | nil => simp [dotDigit, ha]
    | cons b rest2 =>
      simp [dotDigit, ha]
      exact ih h2

theorem dotDigit_mid (a : List Char) (c : Char) (r : List Char) (ha : '.' ∉ a)
    (hc : c.isDigit = true) : dotDigit (a ++ '.' :: c :: r) = true := by
  induction a with
  | nil => simp [dotDigit, hc]
  | cons x rest ih =>
    have hx : x ≠ '.' := fun hh => ha (hh ▸ List.mem_cons_self x rest)
    have h2 : '.' ∉ rest := fun hh => ha (List.mem_cons_of_mem x hh)
    cases rest with
    | nil => simp [dotDigit, hx, hc]
    | cons y rest2 =>
      simp [dotDigit, hx]
      exact ih h2

theorem contains_false_of_not_mem (l : List Char) (c : Char) (h : c ∉ l) :
    l.contains c = false := by
  cases hc : l.contains c with
  | false => rfl
  | true => exact absurd (List.mem_of_elem_eq_true hc) h

theorem not_mem_of_contains_false (l : List Char) (c : Char) (h : l.contains c = false) :
    c ∉ l := by
  intro hm
  rw [show l.contains c = l.elem c from rfl, List.elem_eq_true_of_mem hm] at h
  exact Bool.noConfusion h

/-! ## Floor and rounding lemmas -/

theorem ratFloor_le (q : ℚ) : (ratFloor q : ℚ) ≤ q := by
  have hden : (0 : Int) < (q.den : Int) := by exact_mod_cast q.pos
  have h1 : (q.den : Int) * ratFloor q ≤ q.num := by
    unfold ratFloor
    have h2 := Int.fdiv_add_fmod q.num (q.den : Int)
    have h3 := Int.fmod_nonneg' q.num hden
    omega
  have hq : q = (q.num : ℚ) / (q.den : ℚ) := (Rat.num_div_den q).symm
  conv_rhs => rw [hq]
  rw [le_div_iff₀ (by exact_mod_cast q.pos)]
  have hcast : ((ratFloor q : Int) : ℚ) * (q.den : ℚ)
      = (((q.den : Int) * ratFloor q : Int) : ℚ) := by
    push_cast
    ring
  rw [hcast]
  exact_mod_cast h1

theorem lt_ratFloor_add_one (q : ℚ) : q < (ratFloor q : ℚ) + 1 := by
  have hden : (0 : Int) < (q.den : Int) := by exact_mod_cast q.pos
  have h1 : q.num < (ratFloor q + 1) * (q.den : Int) := by
    unfold ratFloor
    have h2 := Int.fdiv_add_fmod q.num (q.den : Int)
    have h3 := Int.fmod_lt_of_pos q.num hden
    calc q.num = (q.den : Int) * (q.num.fdiv (q.den : Int)) + q.num.fmod (q.den : Int) :=
          h2.symm
      _ < (q.den : Int) * (q.num.fdiv (q.den : Int)) + (q.den : Int) := by omega
      _ = (q.num.fdiv (q.den : Int) + 1) * (q.den : Int) := by ring
  have hq : q = (q.num : ℚ) / (q.den : ℚ) := (Rat.num_div_den q).symm
  conv_lhs => rw [hq]
  rw [div_lt_iff₀ (by exact_mod_cast q.pos)]
  calc ((q.num : Int) : ℚ) < (((ratFloor q + 1) * (q.den : Int) : Int) : ℚ) := by
        exact_mod_cast h1
    _ = ((ratFloor q : ℚ) + 1) * (q.den : ℚ) := by
        push_cast
        ring

theorem int_le_ratFloor_of_le (c : Int) (q : ℚ) (h : (c : ℚ) ≤ q) : c ≤ ratFloor q := by
  by_contra hc
  push_neg at hc
  have h2 : q < (ratFloor q : ℚ) + 1 := lt_ratFloor_add_one q
  have h3 : ((ratFloor q : Int) : ℚ) + 1 ≤ (c : ℚ) := by
    have : ratFloor q + 1 ≤ c := by omega
    exact_mod_cast this
  linarith

theorem ratFloor_le_roundHalfEven (q : ℚ) : ratFloor q ≤ roundHalfEven q := by
  unfold roundHalfEven
  split_ifs <;> omega

theorem pow10Q_pos (k : Int) : 0 < pow10Q k := by
  unfold pow10Q
  split_ifs
  · positivity
  · positivity

/-! ## Digit-count bounds and the decimal-exponent bound -/

theorem numDigitsAux_pos (f n : Nat) : 1 ≤ numDigitsAux f n := by
  cases f with
  | zero => exact le_refl 1
  | succ f =>
    rw [numDigitsAux]
    split_ifs <;> omega

theorem numDigitsAux_bounds : ∀ f n, n ≤ f →
    n < 10 ^ numDigitsAux f n ∧ (1 ≤ n → 10 ^ (numDigitsAux f n - 1) ≤ n) := by
  intro f
  induction f with
  | zero =>
    intro n hn
    have hn0 : n = 0 := by omega
    subst hn0
    refine ⟨by norm_num [numDigitsAux], by omega⟩
  | succ f ih =>
    intro n hn
    rw [numDigitsAux]
    by_cases h9 : n ≤ 9
    · rw [if_pos h9]
      refine ⟨by simpa using by omega, fun h1 => by simpa using h1⟩
    · rw [if_neg h9]
      have hd2 : n / 10 ≤ f := by
        have := Nat.div_lt_self (by omega : 0 < n) (by omega : (1 : Nat) < 10)
        omega
      rcases ih (n / 10) hd2 with ⟨hu, hl⟩
      have hl2 := hl ((Nat.one_le_div_iff (by omega)).mpr (by omega))
      have hd1 : 1 ≤ numDigitsAux f (n / 10) := numDigitsAux_pos f (n / 10)
      constructor
      · have hp : (10 : Nat) ^ (1 + numDigitsAux f (n / 10)) = 10 * 10 ^ numDigitsAux f (n / 10) := by
          rw [pow_add, pow_one]
        have hdm := Nat.div_add_mod n 10
        have hmod : n % 10 < 10 := Nat.mod_lt _ (by omega)
        omega
      · intro _
        have h10 : (10 : Nat) ^ (1 + numDigitsAux f (n / 10) - 1)
            = 10 * 10 ^ (numDigitsAux f (n / 10) - 1) := by
          rw [show 1 + numDigitsAux f (n / 10) - 1 = (numDigitsAux f (n / 10) - 1) + 1 from by omega]
          rw [pow_succ]
          ring
        have hdm := Nat.div_add_mod n 10
        have hmul := Nat.mul_le_mul_left 10 hl2
        omega

theorem numDigits_lt (n : Nat) : n < 10 ^ numDigits n :=
  (numDigitsAux_bounds n n le_rfl).1

theorem numDigits_le (n : Nat) (h : 1 ≤ n) : 10 ^ (numDigits n - 1) ≤ n :=
  (numDigitsAux_bounds n n le_rfl).2 h

theorem numDigits_pos (n : Nat) : 1 ≤ numDigits n := numDigitsAux_pos n n

theorem pow10Q_mul_five (e : Int) : pow10Q e * pow10Q (5 - e) = (100000 : ℚ) := by
  unfold pow10Q
  by_cases h1 : 0 ≤ e
  · by_cases h2 : 0 ≤ 5 - e
    · rw [if_pos h1, if_pos h2, ← Nat.cast_mul, ← pow_add,
        show e.toNat + (5 - e).toNat = 5 from by omega]
      norm_num
    · rw [if_pos h1, if_neg h2]
      rw [mul_inv_eq_iff_eq_mul₀ (by positivity)]
      have hnat : (10 : ℕ) ^ e.toNat = 100000 * 10 ^ (-(5 - e)).toNat := by
        rw [show e.toNat = 5 + (-(5 - e)).toNat from by omega, pow_add]
        norm_num
      exact_mod_cast hnat
  · rw [if_neg h1, if_pos (by omega)]
    rw [inv_mul_eq_div, div_eq_iff (by positivity)]
    have hnat : (10 : ℕ) ^ (5 - e).toNat = 100000 * 10 ^ (-e).toNat := by
      rw [show (5 - e).toNat = 5 + (-e).toNat from by omega, pow_add]
      norm_num
    exact_mod_cast hnat

theorem pow10Q_le_of_decExp (aq : ℚ) (h : 0 < aq) : pow10Q (decExp aq) ≤ aq := by
  have hb1 : 1 ≤ aq.den := aq.pos
  have hnum : (0 : Int) < aq.num := Rat.num_pos.mpr h
  have ha1 : 1 ≤ aq.num.natAbs := by omega
  have haq : aq = (aq.num.natAbs : ℚ) / (aq.den : ℚ) := by
    have h1 : ((aq.num.natAbs : ℕ) : ℚ) = ((aq.num : Int) : ℚ) := by
      rw [Int.cast_natAbs]
      exact_mod_cast congrArg (fun z : Int => (z : ℚ)) (abs_of_nonneg (le_of_lt hnum))
    rw [h1, Rat.num_div_den]
  unfold decExp
  set a := aq.num.natAbs with ha
  set b := aq.den with hb
  set da := numDigits a with hda
  set db := numDigits b with hdb
  have hA : (10 : ℕ) ^ (da - 1) ≤ a := numDigits_le a ha1
  have hB : b < 10 ^ db := numDigits_lt b
  have hda1 : 1 ≤ da := numDigits_pos a
  have hdb1 : 1 ≤ db := numDigits_pos b
  by_cases hbr : b * 10 ^ da ≤ a * 10 ^ db
  · rw [if_pos hbr, haq, le_div_iff₀ (by positivity)]
    by_cases hcase : db ≤ da
    · unfold pow10Q
      rw [if_pos (by omega)]
      have hsplit : (10 : ℕ) ^ da = 10 ^ ((da : Int) - db).toNat * 10 ^ db := by
        rw [← pow_add]
        congr 1
        omega
      rw [hsplit] at hbr
      have hP : 0 < (10 : ℕ) ^ db := pow_pos (by norm_num) db
      have h2 : (b * 10 ^ ((da : Int) - db).toNat) * 10 ^ db ≤ a * 10 ^ db := by
        calc (b * 10 ^ ((da : Int) - db).toNat) * 10 ^ db
            = b * (10 ^ ((da : Int) - db).toNat * 10 ^ db) := by ring
          _ ≤ a * 10 ^ db := hbr
      have hnat : 10 ^ ((da : Int) - db).toNat * b ≤ a := by
        have hle := Nat.le_of_mul_le_mul_right h2 hP
        rwa [mul_comm] at hle
      calc ((10 ^ ((da : Int) - db).toNat : ℕ) : ℚ) * (b : ℚ)
          = ((10 ^ ((da : Int) - db).toNat * b : ℕ) : ℚ) := by push_cast; ring
        _ ≤ (a : ℚ) := by exact_mod_cast hnat
    · unfold pow10Q
      rw [if_neg (by omega)]
      rw [inv_mul_eq_div, div_le_iff₀ (by positivity)]
      have hsplit : (10 : ℕ) ^ db = 10 ^ (-((da : Int) - db)).toNat * 10 ^ da := by
        rw [← pow_add]
        congr 1
        omega
      rw [hsplit] at hbr
      have hP : 0 < (10 : ℕ) ^ da := pow_pos (by norm_num) da
      have h2 : b * 10 ^ da ≤ (a * 10 ^ (-((da : Int) - db)).toNat) * 10 ^ da := by
        calc b * 10 ^ da ≤ a * (10 ^ (-((da : Int) - db)).toNat * 10 ^ da) := hbr
          _ = (a * 10 ^ (-((da : Int) - db)).toNat) * 10 ^ da := by ring
      have hnat : b ≤ a * 10 ^ (-((da : Int) - db)).toNat :=
        Nat.le_of_mul_le_mul_right h2 hP
      calc (b : ℚ) ≤ ((a * 10 ^ (-((da : Int) - db)).toNat : ℕ) : ℚ) := by exact_mod_cast hnat
        _ = (a : ℚ) * ((10 ^ (-((da : Int) - db)).toNat : ℕ) : ℚ) := by push_cast; ring
  · rw [if_neg hbr, haq, le_div_iff₀ (by positivity)]
    by_cases hcase : db + 1 ≤ da
    · unfold pow10Q
      rw [if_pos (by omega)]
      have h2 : (10 : ℕ) ^ ((da : Int) - db - 1).toNat * b
          ≤ 10 ^ ((da : Int) - db - 1).toNat * 10 ^ db :=
        Nat.mul_le_mul_left _ (le_of_lt hB)
      have h3 : (10 : ℕ) ^ ((da : Int) - db - 1).toNat * 10 ^ db = 10 ^ (da - 1) := by
        rw [← pow_add]
        congr 1
        omega
      have hnat : 10 ^ ((da : Int) - db - 1).toNat * b ≤ a := by omega
      calc ((10 ^ ((da : Int) - db - 1).toNat : ℕ) : ℚ) * (b : ℚ)
          = ((10 ^ ((da : Int) - db - 1).toNat * b : ℕ) : ℚ) := by push_cast; ring
        _ ≤ (a : ℚ) := by exact_mod_cast hnat
    · unfold pow10Q
      rw [if_neg (by omega)]
      rw [inv_mul_eq_div, div_le_iff₀ (by positivity)]
      have h2 : (10 : ℕ) ^ (da - 1) * 10 ^ (-((da : Int) - db - 1)).toNat
          ≤ a * 10 ^ (-((da : Int) - db - 1)).toNat :=
        Nat.mul_le_mul_right _ hA
      have h3 : (10 : ℕ) ^ (da - 1) * 10 ^ (-((da : Int) - db - 1)).toNat = 10 ^ db := by
        rw [← pow_add]
        congr 1
        omega
      have hnat : b ≤ a * 10 ^ (-((da : Int) - db - 1)).toNat := by omega
      calc (b : ℚ) ≤ ((a * 10 ^ (-((da : Int) - db - 1)).toNat : ℕ) : ℚ) := by
            exact_mod_cast hnat
        _ = (a : ℚ) * ((10 ^ (-((da : Int) - db - 1)).toNat : ℕ) : ℚ) := by push_cast; ring

theorem round6_fst_pos (aq : ℚ) (h : 0 < aq) : 1 ≤ (round6 aq).1 := by
  have hkey : (100000 : Int) ≤ roundHalfEven (aq * pow10Q (5 - decExp aq)) := by
    have h1 : ((100000 : Int) : ℚ) ≤ aq * pow10Q (5 - decExp aq) := by
      have h2 := pow10Q_le_of_decExp aq h
      have h3 : pow10Q (decExp aq) * pow10Q (5 - decExp aq)
          ≤ aq * pow10Q (5 - decExp aq) :=
        mul_le_mul_of_nonneg_right h2 (le_of_lt (pow10Q_pos _))
      rw [pow10Q_mul_five] at h3
      exact_mod_cast h3
    calc (100000 : Int) ≤ ratFloor (aq * pow10Q (5 - decExp aq)) :=
        int_le_ratFloor_of_le _ _ h1
      _ ≤ roundHalfEven _ := ratFloor_le_roundHalfEven _
  unfold round6
  split_ifs with hm
  · norm_num
  · simp only
    omega

theorem rstrip0_natDigits_ne_nil (n : Nat) (h : 1 ≤ n) : rstrip0 (natDigits n) ≠ [] := by
  intro hnil
  have hall := rstrip_eq_nil_forall _ _ hnil
  rcases natDigitsAux_head n n h le_rfl with ⟨d, rest, heq, hd⟩
  have hmem : d ∈ natDigits n := by
    rw [show natDigits n = natDigitsAux n n from by unfold natDigits; rw [if_neg (by omega)]]
    rw [heq]
    exact List.mem_cons_self _ _
  have := hall d hmem
  simp at this
  exact hd this

/-! ## Shape of the fallback branch (`%.6f` then strip) -/

theorem no_exp_of_class (l : List Char)
    (h : ∀ c ∈ l, c.isDigit = true ∨ c = '-' ∨ c = '.') : 'e' ∉ l ∧ 'E' ∉ l := by
  constructor <;> intro hm <;> rcases h _ hm with h2 | h2 | h2 <;>
    exact absurd h2 (by decide)

theorem padLeft_digits (k : Nat) (l : List Char) (hl : ∀ c ∈ l, c.isDigit = true) :
    ∀ c ∈ padLeft k '0' l, c.isDigit = true := by
  intro c hc
  rcases List.mem_append.mp hc with h | h
  · rw [List.eq_of_mem_replicate h]
    decide
  · exact hl c h

theorem fixed6_strip_spec (sign I F : List Char)
    (hsign : ∀ c ∈ sign, c = '-')
    (hI : ∀ c ∈ I, c.isDigit = true) (hIne : I ≠ [])
    (hF : ∀ c ∈ F, c.isDigit = true) :
    (∀ c ∈ rstrip (fun c => c = '.') (rstrip (fun c => c = '0') (sign ++ I ++ '.' :: F)),
        c.isDigit = true ∨ c = '-' ∨ c = '.')
    ∧ dotDigit
        (if (rstrip (fun c => c = '.') (rstrip (fun c => c = '0') (sign ++ I ++ '.' :: F))).contains '.'
         then rstrip (fun c => c = '.') (rstrip (fun c => c = '0') (sign ++ I ++ '.' :: F))
         else rstrip (fun c => c = '.')
            (rstrip (fun c => c = '0') (sign ++ I ++ '.' :: F)) ++ ['.', '0']) = true := by
  have hpre : ∀ c ∈ sign ++ I, c.isDigit = true ∨ c = '-' := by
    intro c hc
    rcases List.mem_append.mp hc with h | h
    · exact Or.inr (hsign c h)
    · exact Or.inl (hI c h)
  have hpredot : '.' ∉ sign ++ I := by
    intro hc
    rcases hpre _ hc with h | h <;> exact absurd h (by decide)
  have hrw : sign ++ I ++ '.' :: F = ((sign ++ I) ++ ['.']) ++ F := by
    simp [List.append_assoc]
  rw [hrw]
  rcases List.eq_nil_or_concat I with hInil | ⟨I2, d, hId⟩
  · exact absurd hInil hIne
  rw [List.concat_eq_append] at hId
  have hd : d.isDigit = true :=
    hI d (by rw [hId]; exact List.mem_append_right I2 (List.mem_singleton_self d))
  by_cases hz : rstrip (fun c => c = '0') F = []
  · have hFz := rstrip_eq_nil_forall _ _ hz
    have step1 : rstrip (fun c => c = '0') (((sign ++ I) ++ ['.']) ++ F)
        = rstrip (fun c => c = '0') ((sign ++ I) ++ ['.']) :=
      rstrip_append_all _ _ _ hFz
    have step2 : rstrip (fun c => c = '0') ((sign ++ I) ++ ['.']) = (sign ++ I) ++ ['.'] :=
      rstrip_last_not _ _ _ (by decide)
    have step3 : rstrip (fun c => c = '.') ((sign ++ I) ++ ['.']) = rstrip (fun c => c = '.') (sign ++ I) := by
      apply rstrip_append_all
      intro c hc
      rw [List.mem_singleton] at hc
      subst hc
      decide
    have step4 : rstrip (fun c => c = '.') (sign ++ I) = sign ++ I := by
      rw [hId, ← List.append_assoc]
      apply rstrip_last_not
      rcases isDigit_ne_special d hd with ⟨hdot, -, -, -⟩
      simpa using hdot
    rw [step1, step2, step3, step4]
    have hnodot : ((sign ++ I).contains '.') = false := contains_false_of_not_mem _ _ hpredot
    rw [hnodot]
    simp only [Bool.false_eq_true, if_false]
    exact ⟨fun c hc => (hpre c hc).elim (fun h => Or.inl h) (fun h => Or.inr (Or.inl h)),
      dotDigit_append_dot_zero _ hpredot⟩
  · have step1 : rstrip (fun c => c = '0') (((sign ++ I) ++ ['.']) ++ F)
        = ((sign ++ I) ++ ['.']) ++ rstrip (fun c => c = '0') F :=
      rstrip_append_of_ne_nil _ _ _ hz
    have hFs : ∀ c ∈ rstrip (fun c => c = '0') F, c.isDigit = true :=
      fun c hc => hF c (rstrip_subset _ _ _ hc)
    rcases List.eq_nil_or_concat (rstrip (fun c => c = '0') F) with hGnil | ⟨G, g, hGg⟩
    · exact absurd hGnil hz
    rw [List.concat_eq_append] at hGg
    have hg : g.isDigit = true :=
      hFs g (by rw [hGg]; exact List.mem_append_right G (List.mem_singleton_self g))
    have step2 : rstrip (fun c => c = '.') (((sign ++ I) ++ ['.']) ++ rstrip (fun c => c = '0') F)
        = ((sign ++ I) ++ ['.']) ++ rstrip (fun c => c = '0') F := by
      rw [hGg, ← List.append_assoc]
      apply rstrip_last_not
      rcases isDigit_ne_special g hg with ⟨hdot, -, -, -⟩
      simpa using hdot
    rw [step1, step2]
    have hdotmem : '.' ∈ ((sign ++ I) ++ ['.']) ++ rstrip (fun c => c = '0') F := by
      apply List.mem_append_left
      exact List.mem_append_right _ (List.mem_singleton_self '.')
    have hcont : ((((sign ++ I) ++ ['.']) ++ rstrip (fun c => c = '0') F).contains '.') = true :=
      List.elem_eq_true_of_mem hdotmem
    rw [hcont]
    simp only [if_true]
    constructor
    · intro c hc
      rcases List.mem_append.mp hc with hc2 | hc2
      · rcases List.mem_append.mp hc2 with hc3 | hc3
        · exact (hpre c hc3).elim (fun h => Or.inl h) (fun h => Or.inr (Or.inl h))
        · rw [List.mem_singleton] at hc3
          exact Or.inr (Or.inr hc3)
      · exact Or.inl (hFs c hc2)
    · rcases List.exists_cons_of_ne_nil hz with ⟨f0, frest, hf0⟩
      have hf0d : f0.isDigit = true := hFs f0 (by rw [hf0]; exact List.mem_cons_self _ _)
      have hassoc : ((sign ++ I) ++ ['.']) ++ rstrip (fun c => c = '0') F
          = (sign ++ I) ++ '.' :: f0 :: frest := by
        rw [hf0]
        simp [List.append_assoc]
      rw [hassoc]
      exact dotDigit_mid _ f0 frest hpredot hf0d

theorem pyFormatF6_spec (x : ℚ) :
    (∀ c ∈ rstrip (fun c => c = '.') (rstrip (fun c => c = '0') (pyFormatF6 x)),
        c.isDigit = true ∨ c = '-' ∨ c = '.')
    ∧ dotDigit
        (if (rstrip (fun c => c = '.') (rstrip (fun c => c = '0') (pyFormatF6 x))).contains '.'
         then rstrip (fun c => c = '.') (rstrip (fun c => c = '0') (pyFormatF6 x))
         else rstrip (fun c => c = '.')
            (rstrip (fun c => c = '0') (pyFormatF6 x)) ++ ['.', '0']) = true := by
  have heq : pyFormatF6 x
      = (if x < 0 then ['-'] else [])
        ++ natDigits ((roundHalfEven (|x| * 1000000)).toNat / 1000000)
        ++ '.' :: padLeft 6 '0' (natDigits ((roundHalfEven (|x| * 1000000)).toNat % 1000000)) :=
    rfl
  rw [heq]
  apply fixed6_strip_spec
  · intro c hc
    by_cases hx : x < 0
    · rw [if_pos hx, List.mem_singleton] at hc
      exact hc
    · rw [if_neg hx] at hc
      simp at hc
  · exact fun c hc => natDigits_all_digits _ c hc
  · exact natDigits_ne_nil _
  · exact padLeft_digits 6 _ (fun c hc => natDigits_all_digits _ c hc)

/-! ## Shape of the `%.6g` branch -/

theorem gExp_contains_e (neg : Bool) (ds : List Char) (e : Int) : 'e' ∈ gExp neg ds e := by
  simp only [gExp]
  refine List.mem_append_right _ ?_
  exact List.mem_cons_self 'e' _

theorem gFixed_dotDigit (neg : Bool) (m : Nat) (e : Int) (hm : 1 ≤ m)
    (hcont : (gFixed neg (natDigits m) e).contains '.' = true) :
    dotDigit (gFixed neg (natDigits m) e) = true := by
  have hds : ∀ c ∈ natDigits m, c.isDigit = true := fun c hc => natDigits_all_digits m c hc
  have hsigndot : '.' ∉ (if neg then ['-'] else ([] : List Char)) := by
    cases neg <;> simp
  have hdotmem : '.' ∈ gFixed neg (natDigits m) e := List.mem_of_elem_eq_true hcont
  simp only [gFixed, rstrip0] at hdotmem ⊢
  by_cases he : 0 ≤ e
  · rw [if_pos he] at hdotmem ⊢
    by_cases hfp : (rstrip (fun c => c = '0') ((natDigits m).drop (e.toNat + 1))).isEmpty
    · exfalso
      rw [if_pos hfp] at hdotmem
      rcases List.mem_append.mp hdotmem with h | h
      · exact hsigndot h
      · rcases List.mem_append.mp h with h2 | h2
        · exact absurd (hds _ (List.take_subset _ _ h2)) (by decide)
        · simp at h2
    · rw [if_neg hfp] at hdotmem ⊢
      have hfpne : rstrip (fun c => c = '0') ((natDigits m).drop (e.toNat + 1)) ≠ [] := by
        intro hh
        rw [hh] at hfp
        exact hfp rfl
      rcases List.exists_cons_of_ne_nil hfpne with ⟨f0, frest, hf0⟩
      have hf0d : f0.isDigit = true := by
        apply hds
        apply List.drop_subset
        apply rstrip_subset _ _ _
        rw [hf0]
        exact List.mem_cons_self _ _
      have hpredot2 : '.' ∉ (if neg then ['-'] else []) ++ (natDigits m).take (e.toNat + 1) := by
        intro h
        rcases List.mem_append.mp h with h | h
        · exact hsigndot h
        · exact absurd (hds _ (List.take_subset _ _ h)) (by decide)
      have hassoc : (if neg then ['-'] else [])
            ++ ((natDigits m).take (e.toNat + 1)
              ++ '.' :: rstrip (fun c => c = '0') ((natDigits m).drop (e.toNat + 1)))
          = ((if neg then ['-'] else []) ++ (natDigits m).take (e.toNat + 1))
              ++ '.' :: f0 :: frest := by
        rw [hf0, List.append_assoc]
      rw [hassoc]
      exact dotDigit_mid _ f0 frest hpredot2 hf0d
  · rw [if_neg he]
    have hne : rstrip (fun c => c = '0') (natDigits m) ≠ [] := by
      have := rstrip0_natDigits_ne_nil m hm
      simpa [rstrip0] using this
    have htailne : List.replicate (-e - 1).toNat '0' ++ rstrip (fun c => c = '0') (natDigits m)
        ≠ [] := by
      intro hh
      exact hne (List.append_eq_nil.mp hh).2
    rcases List.exists_cons_of_ne_nil htailne with ⟨t0, trest, ht0⟩
    have ht0d : t0.isDigit = true := by
      have hmem : t0 ∈ List.replicate (-e - 1).toNat '0'
          ++ rstrip (fun c => c = '0') (natDigits m) := by
        rw [ht0]
        exact List.mem_cons_self _ _
      rcases List.mem_append.mp hmem with h | h
      · rw [List.eq_of_mem_replicate h]
        decide
      · exact hds _ (rstrip_subset _ _ _ h)
    have hpredot2 : '.' ∉ (if neg then ['-'] else []) ++ ['0'] := by
      intro h
      rcases List.mem_append.mp h with h | h
      · exact hsigndot h
      · rw [List.mem_singleton] at h
        exact absurd h (by decide)
    have hassoc : (if neg then ['-'] else [])
          ++ '0' :: '.' :: (List.replicate (-e - 1).toNat '0'
            ++ rstrip (fun c => c = '0') (natDigits m))
        = ((if neg then ['-'] else []) ++ ['0']) ++ '.' :: t0 :: trest := by
      rw [ht0, List.append_assoc]
      rfl
    rw [hassoc]
    exact dotDigit_mid _ t0 trest hpredot2 ht0d

theorem pyFormatG6_dotDigit (x : ℚ)
    (hE : ((pyFormatG6 x).contains 'e' || (pyFormatG6 x).contains 'E') = false)
    (hdot : (pyFormatG6 x).contains '.' = true) :
    dotDigit (pyFormatG6 x) = true := by
  by_cases hx : x = 0
  · rw [hx] at hdot
    exact absurd hdot (by decide)
  · simp only [pyFormatG6] at hdot hE ⊢
    rw [if_neg hx] at hdot hE ⊢
    by_cases hrange : -4 ≤ (round6 |x|).2 ∧ (round6 |x|).2 < 6
    · rw [if_pos hrange] at hdot ⊢
      exact gFixed_dotDigit _ _ _ (round6_fst_pos |x| (abs_pos.mpr hx)) hdot
    · rw [if_neg hrange] at hE
      exfalso
      have hmem := gExp_contains_e (decide (x < 0)) (natDigits (round6 |x|).1) (round6 |x|).2
      have hcon := List.elem_eq_true_of_mem hmem
      rw [Bool.or_eq_false_iff] at hE
      rw [show (gExp (decide (x < 0)) (natDigits (round6 |x|).1) (round6 |x|).2).elem 'e'
          = (gExp (decide (x < 0)) (natDigits (round6 |x|).1) (round6 |x|).2).contains 'e'
          from rfl, hE.1] at hcon
      exact Bool.noConfusion hcon

/-! ## The formatter contract of claim C4 -/

theorem fmt_shape (x : ℚ) :
    (fmtChars x).contains 'e' = false
    ∧ (fmtChars x).contains 'E' = false
    ∧ dotDigit (fmtChars x) = true := by
  simp only [fmtChars]
  by_cases hE : ((pyFormatG6 x).contains 'e' || (pyFormatG6 x).contains 'E') = true
  · rw [if_pos hE]
    rcases pyFormatF6_spec x with ⟨hclass, hdot⟩
    have hnoe := no_exp_of_class _ hclass
    refine ⟨?_, ?_, hdot⟩
    · split_ifs with hfb
      · exact contains_false_of_not_mem _ _ hnoe.1
      · apply contains_false_of_not_mem
        intro hmem
        rcases List.mem_append.mp hmem with h | h
        · exact hnoe.1 h
        · simp at h
    · split_ifs with hfb
      · exact contains_false_of_not_mem _ _ hnoe.2
      · apply contains_false_of_not_mem
        intro hmem
        rcases List.mem_append.mp hmem with h | h
        · exact hnoe.2 h
        · simp at h
  · rw [if_neg hE]
    have hE2 : (pyFormatG6 x).contains 'e' = false ∧ (pyFormatG6 x).contains 'E' = false := by
      rw [← Bool.or_eq_false_iff]
      exact Bool.eq_false_iff.mpr hE
    refine ⟨?_, ?_, ?_⟩
    · split_ifs with hdot
      · exact hE2.1
      · apply contains_false_of_not_mem
        intro hmem
        rcases List.mem_append.mp hmem with h | h
        · exact not_mem_of_contains_false _ _ hE2.1 h
        · simp at h
    · split_ifs with hdot
      · exact hE2.2
      · apply contains_false_of_not_mem
        intro hmem
        rcases List.mem_append.mp hmem with h | h
        · exact not_mem_of_contains_false _ _ hE2.2 h
        · simp at h
    · split_ifs with hdot
      · exact pyFormatG6_dotDigit x (by rw [Bool.or_eq_false_iff]; exact hE2) hdot
      · exact dotDigit_append_dot_zero _
          (not_mem_of_contains_false _ _ (Bool.eq_false_iff.mpr hdot))

/-- C4: the formatter never emits exponent form (no `e` or `E` in its
output), the result always carries a decimal point immediately followed by
a digit, and whenever the `.6g` rendering is in exponent form the result
is the `.6f` fallback stripped of trailing zeros and of a trailing point,
with `.0` appended when no point remains. -/
theorem claim_C4_formatter_never_scientific (x : ℚ) :
    (_fmt_sig6 x).data.contains 'e' = false
    ∧ (_fmt_sig6 x).data.contains 'E' = false
    ∧ dotDigit (_fmt_sig6 x).data = true
    ∧ (((pyFormatG6 x).contains 'e' || (pyFormatG6 x).contains 'E') = true →
        fmtChars x
          = (if (rstrip (fun c => c = '.')
                (rstrip (fun c => c = '0') (pyFormatF6 x))).contains '.'
             then rstrip (fun c => c = '.') (rstrip (fun c => c = '0') (pyFormatF6 x))
             else rstrip (fun c => c = '.')
                (rstrip (fun c => c = '0') (pyFormatF6 x)) ++ ['.', '0'])) := by
  have h := fmt_shape x
  refine ⟨h.1, h.2.1, h.2.2, fun hE => ?_⟩
  simp only [fmtChars]
  rw [if_pos hE]

/-- Witness for C4 at `1e-7`, a value whose `.6g` rendering is in
exponent form, exercising the fallback branch. -/
theorem claim_C4_formatter_never_scientific_witness :
    ((pyFormatG6 (1 / 10000000 : ℚ)).contains 'e'
        || (pyFormatG6 (1 / 10000000 : ℚ)).contains 'E') = true
    ∧ fmtChars (1 / 10000000 : ℚ)
        = (if (rstrip (fun c => c = '.')
              (rstrip (fun c => c = '0') (pyFormatF6 (1 / 10000000 : ℚ)))).contains '.'
           then rstrip (fun c => c = '.')
              (rstrip (fun c => c = '0') (pyFormatF6 (1 / 10000000 : ℚ)))
           else rstrip (fun c => c = '.')
              (rstrip (fun c => c = '0') (pyFormatF6 (1 / 10000000 : ℚ))) ++ ['.', '0']) :=
  ⟨by with_unfolding_all decide,
   (claim_C4_formatter_never_scientific (1 / 10000000 : ℚ)).2.2.2
     (by with_unfolding_all decide)⟩

/-- C5 as stated is false at its own example: formatting the value
52.5200066 yields the string `"52.52"` (six significant digits, trailing
zeros stripped), not `"52.5"`. -/
theorem claim_C5_number_format_counterexample :
    _fmt_sig6 (525200066 / 10000000 : ℚ) = "52.52"
    ∧ ¬ (_fmt_sig6 (525200066 / 10000000 : ℚ) = "52.5") := by
  constructor
  · with_unfolding_all decide
  · with_unfolding_all decide

/-- C5 amended: formatting 52.5200066 yields `"52.52"`, and the
integer-valued 50.0 yields `"50.0"`, never `"50"`. -/
theorem claim_C5_number_format_amended :
    _fmt_sig6 (525200066 / 10000000 : ℚ) = "52.52"
    ∧ _fmt_sig6 (50 : ℚ) = "50.0"
    ∧ ¬ (_fmt_sig6 (50 : ℚ) = "50") := by
  refine ⟨?_, ?_, ?_⟩ <;> with_unfolding_all decide

end ZooScrape
